import Mathlib

/-!
Verification of the skill archive packager and the frontmatter validator.

The Archive Packager (`package_skill.py`) is modelled from the specification:
its module is not present in the sources (only its regression tests are), so
every packager definition below carries a doc comment starting
`Modelled from the spec:`.  The frontmatter validator (`quick_validate.py`)
is present in the sources and is embedded from it directly.
-/

namespace OpenClaw

/-- Modelled from the spec: `package_skill.py` is absent from the sources
(only its regression tests are present), so the Archive Packager of spec §3–§4
is modelled from the spec's words.  One filesystem object encountered while
traversing a bundle: a regular file, a real directory with its children, or a
symbolic link.  Every non-symlink entry carries its resolved (canonical,
symlink-free) absolute path as a component sequence; a symlink carries the
resolved path of its target, which the packager never reads (symlinks are
never followed, so the subtree behind a directory symlink is invisible to the
traversal). -/
inductive Entry where
  | regular (name : String) (resolved : List String)
  | dir (name : String) (resolved : List String) (children : List Entry)
  | symlink (name : String) (targetResolved : List String)

/-- The declared name of an entry inside its parent directory. -/
def entryName : Entry → String
  | .regular n _ => n
  | .dir n _ _ => n
  | .symlink n _ => n

mutual

/-- Modelled from the spec: bundle-relative paths of the regular files the
traversal can reach in one entry without following any symlink (spec §4.1
steps 1 and 4).  `pre` is the path of the enclosing directory relative to the
bundle root. -/
def filePathsE (pre : List String) : Entry → List (List String)
  | .regular n _ => [pre ++ [n]]
  | .dir n _ cs => filePathsList (pre ++ [n]) cs
  | .symlink _ _ => []
termination_by structural e => e

/-- Modelled from the spec: bundle-relative paths of the regular files the
traversal can reach in a forest without following any symlink. -/
def filePathsList (pre : List String) : List Entry → List (List String)
  | [] => []
  | e :: es => filePathsE pre e ++ filePathsList pre es
termination_by structural es => es

end

mutual

/-- Modelled from the spec: bundle-relative declared paths of the symlink
entries the traversal encounters in one entry (spec §4.1 step 1). -/
def symlinkPathsE (pre : List String) : Entry → List (List String)
  | .regular _ _ => []
  | .dir n _ cs => symlinkPathsList (pre ++ [n]) cs
  | .symlink n _ => [pre ++ [n]]
termination_by structural e => e

/-- Modelled from the spec: bundle-relative declared paths of the symlink
entries the traversal encounters in a forest. -/
def symlinkPathsList (pre : List String) : List Entry → List (List String)
  | [] => []
  | e :: es => symlinkPathsE pre e ++ symlinkPathsList pre es
termination_by structural es => es

end

mutual

/-- Modelled from the spec: bundle-relative paths the traversal visits
(classifies) in one entry: the entry itself and, for a real directory, its
descendants — but never anything behind a symlink (spec §4.1, §5). -/
def visitPathsE (pre : List String) : Entry → List (List String)
  | .regular n _ => [pre ++ [n]]
  | .dir n _ cs => (pre ++ [n]) :: visitPathsList (pre ++ [n]) cs
  | .symlink n _ => [pre ++ [n]]
termination_by structural e => e

/-- Modelled from the spec: bundle-relative paths of every entry the
traversal visits in a forest, in traversal order. -/
def visitPathsList (pre : List String) : List Entry → List (List String)
  | [] => []
  | e :: es => visitPathsE pre e ++ visitPathsList pre es
termination_by structural es => es

end

mutual

/-- Modelled from the spec: the containment check of spec §4.1 step 2 on one
entry — a non-symlink entry's resolved component sequence must begin with the
bundle root's component sequence, recursively for a directory's children;
symlinks are exempt. -/
def entryContained (root : List String) : Entry → Bool
  | .regular _ r => decide (root <+: r)
  | .dir _ r cs => decide (root <+: r) && allContainedList root cs
  | .symlink _ _ => true
termination_by structural e => e

/-- Modelled from the spec: the containment check of spec §4.1 step 2 applied
to a whole forest. -/
def allContainedList (root : List String) : List Entry → Bool
  | [] => true
  | e :: es => entryContained root e && allContainedList root es
termination_by structural es => es

end

mutual

/-- Modelled from the spec: bundle-relative paths of the non-symlink entries
within one entry whose resolved path escapes the bundle root, i.e. that fail
the containment check of spec §4.1 step 2. -/
def escapedPathsE (root pre : List String) : Entry → List (List String)
  | .regular n r => if root <+: r then [] else [pre ++ [n]]
  | .dir n r cs =>
      (if root <+: r then [] else [pre ++ [n]]) ++
        escapedPathsList root (pre ++ [n]) cs
  | .symlink _ _ => []
termination_by structural e => e

/-- Modelled from the spec: bundle-relative paths of the non-symlink entries
of a forest whose resolved path escapes the bundle root. -/
def escapedPathsList (root pre : List String) : List Entry → List (List String)
  | [] => []
  | e :: es => escapedPathsE root pre e ++ escapedPathsList root pre es
termination_by structural es => es

end

mutual

/-- `true` when the entry is not a symlink and (for a directory) contains no
symlink anywhere below it. -/
def entryNoSymlink : Entry → Bool
  | .regular _ _ => true
  | .dir _ _ cs => noSymlinksList cs
  | .symlink _ _ => false
termination_by structural e => e

/-- `true` when no entry of the forest (reachable without following
symlinks) is a symlink. -/
def noSymlinksList : List Entry → Bool
  | [] => true
  | e :: es => entryNoSymlink e && noSymlinksList es
termination_by structural es => es

end

mutual

/-- Well-formedness below one entry: inside a directory the declared names
are pairwise distinct (as on a real filesystem), recursively. -/
def wfEntry : Entry → Bool
  | .regular _ _ => true
  | .dir _ _ cs => decide ((cs.map entryName).Nodup) && wfEach cs
  | .symlink _ _ => true
termination_by structural e => e

/-- Well-formedness below every entry of a forest. -/
def wfEach : List Entry → Bool
  | [] => true
  | e :: es => wfEntry e && wfEach es
termination_by structural es => es

end

/-- Well-formedness of a bundle's entry forest: distinct names at the top
level and, recursively, at every directory level below. -/
def wfForest (es : List Entry) : Bool :=
  decide ((es.map entryName).Nodup) && wfEach es

mutual

/-- Depth of one entry in directory levels: a file or symlink has depth 1, a
directory one more than its children. -/
def entryDepth : Entry → Nat
  | .regular _ _ => 1
  | .dir _ _ cs => 1 + forestDepth cs
  | .symlink _ _ => 1
termination_by structural e => e

/-- Depth of the forest in directory levels: an entry at the top level sits
at depth 1, its children at depth 2, and so on. -/
def forestDepth : List Entry → Nat
  | [] => 0
  | e :: es => max (entryDepth e) (forestDepth es)
termination_by structural es => es

end

/-- Modelled from the spec: a SkillBundle (spec §3) — a directory identified
by its base name `skillName`, with the canonical component sequence of its
root and the forest of entries found under it. -/
structure Bundle where
  skillName : String
  rootResolved : List String
  entries : List Entry

/-- Modelled from the spec: the OutputArchive's filename
`<skill_name>.<archive-ext>` (spec §3); the regression tests fix the archive
extension to `.skill`. -/
def archiveFileName (b : Bundle) : String := b.skillName ++ ".skill"

/-- Modelled from the spec: the bundle-relative path of the OutputArchive when
the output directory equals or lies inside the bundle directory (spec §4.1
step 3).  `outRel = some rel` means the output directory is the bundle
subdirectory at relative path `rel` (`[]` when the two coincide); `none` means
the output directory lies outside the bundle, in which case no entry can be
the archive itself and nothing is excluded on its account. -/
def selfOutputPath (b : Bundle) (outRel : Option (List String)) :
    Option (List String) :=
  outRel.map (fun rel => rel ++ [archiveFileName b])

/-- Modelled from the spec: the surviving regular-file paths (spec §4.1
step 4): every regular file reachable without following a symlink, minus the
entry matching the OutputArchive's own filename when that falls inside the
bundle. -/
def keptFilePaths (b : Bundle) (outRel : Option (List String)) :
    List (List String) :=
  (filePathsList [] b.entries).filter
    (fun p => decide (selfOutputPath b outRel ≠ some p))

/-- Strict lexicographic comparison of character sequences by code point:
the order on component strings used when sorting member paths. -/
def charListLt : List Char → List Char → Bool
  | [], [] => false
  | [], _ :: _ => true
  | _ :: _, [] => false
  | a :: as, b :: bs => if a = b then charListLt as bs else decide (a < b)

/-- Strict lexicographic comparison of component strings. -/
def strLt (a b : String) : Bool := charListLt a.data b.data

/-- Lexicographic comparison of bundle-relative paths, component by
component, using the order on component strings; a proper prefix sorts before
its extensions. -/
def pathLe : List String → List String → Bool
  | [], _ => true
  | _ :: _, [] => false
  | a :: p, b :: q => if a = b then pathLe p q else strLt a b

/-- Insert a path into a list sorted by `pathLe`, keeping it sorted. -/
def insertPath (p : List String) : List (List String) → List (List String)
  | [] => [p]
  | q :: qs => if pathLe p q then p :: q :: qs else q :: insertPath p qs

/-- Modelled from the spec: the deterministic ordering requirement (spec
§4.1) — the surviving paths are emitted in lexicographic order, here by
insertion sort over `pathLe`. -/
def sortPaths : List (List String) → List (List String)
  | [] => []
  | p :: ps => insertPath p (sortPaths ps)

/-- Modelled from the spec: the caller-visible result of packaging (spec
§4.1): on success the archive exists and its member set is determined by the
surviving file paths; on rejection no archive is produced. -/
inductive PackageResult where
  | archived (members : List (List String))
  | rejected
deriving Repr, DecidableEq

/-- Modelled from the spec: the observable actions of one packaging
invocation, used to state when the Validator is consulted, which entries are
visited, and whether the archive file is written (spec §4.1, §6). -/
inductive Event where
  | validatorCall
  | visit (path : List String)
  | writeArchive
deriving Repr, DecidableEq

/-- Modelled from the spec: `package(bundleDir, outputDir)` (spec §4.1)
together with its event trace.  The Validator verdict is injected as `vOk`
(spec §6 models the Validator as a function-shaped dependency).  Control
flow: Validator gate, then traversal with per-entry classification, then
archive assembly.  A not-ok Validator verdict rejects before any traversal;
a containment failure of any non-symlink entry rejects the whole operation
with no archive write; otherwise the surviving regular files become the
archive members in deterministic lexicographic order. -/
def packageTr (vOk : Bool) (b : Bundle) (outRel : Option (List String)) :
    PackageResult × List Event :=
  if vOk then
    if allContainedList b.rootResolved b.entries then
      (.archived (sortPaths (keptFilePaths b outRel)),
        .validatorCall ::
          ((visitPathsList [] b.entries).map .visit ++ [.writeArchive]))
    else
      (.rejected, .validatorCall :: (visitPathsList [] b.entries).map .visit)
  else
    (.rejected, [.validatorCall])

/-- Modelled from the spec: the result of `package(bundleDir, outputDir)`
without the event trace. -/
def package (vOk : Bool) (b : Bundle) (outRel : Option (List String)) :
    PackageResult :=
  (packageTr vOk b outRel).1

/-- Modelled from the spec: the archive member name of a surviving file —
`<skill_name>/<relative-path-from-bundle-root>` with forward-slash
separators (spec §4.1 step 4). -/
def memberName (skillName : String) (p : List String) : String :=
  String.intercalate "/" (skillName :: p)

/-- Modelled from the spec: the member names of the produced archive. -/
def archiveNames (b : Bundle) (ms : List (List String)) : List String :=
  ms.map (memberName b.skillName)

/-!
Embedding of the frontmatter validator `quick_validate.py`.  The module is
embedded with PyYAML absent (`yaml = None`), i.e. through its own fallback
parser `_parse_simple_frontmatter`; the checks performed after parsing are
shared by both branches and are factored into `check_frontmatter`.
-/

/-- The characters Python's `str.strip` / `str.isspace` treat as whitespace
(the ASCII ones used by the validator's inputs): space, tab, newline,
carriage return, vertical tab and form feed. -/
def isPySpace (c : Char) : Bool :=
  c.isWhitespace || c = '\x0b' || c = '\x0c'

/-- Python `str.strip()`: drop leading and trailing whitespace. -/
def pyStrip (s : String) : String :=
  ⟨((s.data.dropWhile isPySpace).reverse.dropWhile isPySpace).reverse⟩

/-- The line-boundary characters of Python `str.splitlines`. -/
def isLineBoundary (c : Char) : Bool :=
  c = '\n' || c = '\r' || c = '\x0b' || c = '\x0c' ||
  c = '\x1c' || c = '\x1d' || c = '\x1e' || c = '\x85' ||
  c = '\u2028' || c = '\u2029'

/-- Worker for `pySplitlines`: `acc` holds the current line reversed. -/
def splitlinesAux : List Char → List Char → List String
  | [], acc => if acc = [] then [] else [⟨acc.reverse⟩]
  | '\r' :: '\n' :: rest, acc => ⟨acc.reverse⟩ :: splitlinesAux rest []
  | c :: rest, acc =>
    if isLineBoundary c then ⟨acc.reverse⟩ :: splitlinesAux rest []
    else splitlinesAux rest (c :: acc)

/-- Python `str.splitlines()`: split at line boundaries (with `\r\n` counting
as one boundary), producing no entry for a trailing terminator. -/
def pySplitlines (s : String) : List String :=
  splitlinesAux s.data []

/-- The lines strictly before the first line whose strip is `---`, or `none`
when no such closing fence exists (the search loop of
`_extract_frontmatter`). -/
def fmBody : List String → Option (List String)
  | [] => none
  | l :: ls =>
    if pyStrip l = "---" then some []
    else (fmBody ls).map (fun r => l :: r)

/-- `_extract_frontmatter`: the text between an opening `---` line (which
must be the first line) and the next `---` line, or `none`. -/
def extract_frontmatter (content : String) : Option String :=
  match pySplitlines content with
  | [] => none
  | l0 :: rest =>
    if pyStrip l0 = "---" then (fmBody rest).map (String.intercalate "\n")
    else none

/-- Python dict assignment `d[k] = v` on an insertion-ordered association
list: overwrite in place when the key exists, append otherwise. -/
def dictSet (d : List (String × String)) (k v : String) :
    List (String × String) :=
  if d.any (fun kv => kv.1 == k) then
    d.map (fun kv => if kv.1 == k then (k, v) else kv)
  else d ++ [(k, v)]

/-- Python dict lookup `d[k]` (as an `Option`). -/
def dictGet (d : List (String × String)) (k : String) : Option String :=
  (d.find? (fun kv => kv.1 == k)).map (fun kv => kv.2)

/-- Python `s.startswith(c)` for a one-character pattern `c`. -/
def strStartsWith1 (s : String) (c : Char) : Bool :=
  match s.data with
  | [] => false
  | c0 :: _ => c0 = c

/-- Python `s.endswith(c)` for a one-character pattern `c`. -/
def strEndsWith1 (s : String) (c : Char) : Bool :=
  match s.data.getLast? with
  | none => false
  | some c0 => c0 = c

/-- `raw_line[:1].isspace()`: whether the line's first character is
whitespace (false for the empty line). -/
def isIndented (raw : String) : Bool :=
  match raw.data with
  | [] => false
  | c :: _ => isPySpace c

/-- The apostrophe character, i.e. Python's `"'"`. -/
def squoteChar : Char := Char.ofNat 39

/-- Whether the character sequence starts and ends with the quote `q`
(Python `value.startswith(q) and value.endswith(q)`; true for the
one-character string consisting of `q` alone, as in Python). -/
def hasWrap (cs : List Char) (q : Char) : Bool :=
  match cs with
  | [] => false
  | c :: _ => c = q && cs.getLast? = some q

/-- `value[1:-1]` applied when the value is wrapped in matching single or
double quotes, as in `_parse_simple_frontmatter`. -/
def stripQuotes (v : String) : String :=
  if hasWrap v.data '\"' || hasWrap v.data squoteChar then
    ⟨(v.data.drop 1).dropLast⟩
  else v

/-- `stripped.split(":", 1)`: the characters before the first colon and the
characters after it, or `none` when the line holds no colon. -/
def splitColon1 : List Char → Option (List Char × List Char)
  | [] => none
  | c :: rest =>
    if c = ':' then some ([], rest)
    else (splitColon1 rest).map (fun pr => (c :: pr.1, pr.2))

/-- The per-line loop of `_parse_simple_frontmatter`: skip blank and comment
lines; fold an indented line into the value of the current key; otherwise
split at the first colon, strip, unquote and record the pair, remembering the
key for continuation lines.  Returns `none` on an indented line with no
current key, a line with no colon, or an empty key. -/
def psfLoop : List String → List (String × String) → Option String →
    Option (List (String × String))
  | [], parsed, _ => some parsed
  | raw :: rest, parsed, currentKey =>
    let stripped := pyStrip raw
    if stripped = "" || strStartsWith1 stripped '#' then
      psfLoop rest parsed currentKey
    else if isIndented raw then
      match currentKey with
      | none => none
      | some k =>
        let currentValue := (dictGet parsed k).getD ""
        let newValue :=
          if currentValue = "" then stripped
          else currentValue ++ "\n" ++ stripped
        psfLoop rest (dictSet parsed k newValue) currentKey
    else
      match splitColon1 stripped.data with
      | none => none
      | some (kcs, vcs) =>
        let key := pyStrip ⟨kcs⟩
        let value := stripQuotes (pyStrip ⟨vcs⟩)
        if key = "" then none
        else psfLoop rest (dictSet parsed key value) (some key)

/-- `_parse_simple_frontmatter`: the minimal fallback parser used when PyYAML
is unavailable. -/
def parse_simple_frontmatter (t : String) : Option (List (String × String)) :=
  psfLoop (pySplitlines t) [] none

/-- A frontmatter value as `validate_skill` sees it: a Python string, or a
value of some other type (carrying `type(x).__name__` for the error
message). -/
inductive FMValue where
  | str (s : String)
  | other (typeName : String)
deriving Repr, DecidableEq

/-- A parsed frontmatter mapping, insertion-ordered with distinct keys as a
Python dict. -/
abbrev FrontMatter := List (String × FMValue)

/-- `frontmatter.keys()`. -/
def fmKeys (fm : FrontMatter) : List String := fm.map (fun kv => kv.1)

/-- Python `k in frontmatter`. -/
def fmHas (fm : FrontMatter) (k : String) : Bool :=
  fm.any (fun kv => kv.1 == k)

/-- Python `frontmatter.get(k, d)`. -/
def fmGetD (fm : FrontMatter) (k : String) (d : FMValue) : FMValue :=
  ((fm.find? (fun kv => kv.1 == k)).map (fun kv => kv.2)).getD d

/-- `allowed_properties` of `validate_skill`. -/
def allowedProperties : List String :=
  ["name", "description", "license", "allowed-tools", "metadata"]

/-- Python `sorted(set(l))` for strings: distinct elements in increasing
order. -/
def sortedSet (l : List String) : List String :=
  l.eraseDups.mergeSort (fun a b => decide (a ≤ b))

/-- `MAX_SKILL_NAME_LENGTH` of `quick_validate.py`. -/
def MAX_SKILL_NAME_LENGTH : Nat := 64

/-- One character of the class `[a-z0-9-]` of the hyphen-case name pattern. -/
def nameCharOk (c : Char) : Bool :=
  ('a' ≤ c && c ≤ 'z') || ('0' ≤ c && c ≤ '9') || c = '-'

/-- `re.match(r"^[a-z0-9-]+$", name)` on an already-stripped name: the name
is non-empty and every character is a lowercase letter, a digit or a
hyphen. -/
def nameMatchesPattern (s : String) : Bool :=
  !s.data.isEmpty && s.data.all nameCharOk

/-- `"--" in name`. -/
def hasDoubleHyphenAux : List Char → Bool
  | '-' :: '-' :: _ => true
  | _ :: rest => hasDoubleHyphenAux rest
  | [] => false

/-- `"--" in name`, on strings. -/
def hasDoubleHyphen (s : String) : Bool := hasDoubleHyphenAux s.data

/-- The checks `validate_skill` performs on the parsed frontmatter mapping
(quick_validate.py lines 98–149), in source order: unexpected keys, required
`name` and `description` keys, `name` type, the three name checks guarded by
`if name:` (pattern, hyphen placement, length), `description` type, and the
two description checks guarded by `if description:` (angle brackets,
length).  The source's `if name:` guard around the three name checks is
flattened into a conjunct on each branch. -/
def check_frontmatter (frontmatter : FrontMatter) : Bool × String :=
  let unexpected := (fmKeys frontmatter).filter
    (fun k => !(allowedProperties.contains k))
  if unexpected ≠ [] then
    (false, "Unexpected key(s) in SKILL.md frontmatter: " ++
      String.intercalate ", " (sortedSet unexpected) ++
      ". Allowed properties are: " ++
      String.intercalate ", " (sortedSet allowedProperties))
  else if !(fmHas frontmatter "name") then
    (false, "Missing 'name' in frontmatter")
  else if !(fmHas frontmatter "description") then
    (false, "Missing 'description' in frontmatter")
  else
    match fmGetD frontmatter "name" (.str "") with
    | .other t => (false, "Name must be a string, got " ++ t)
    | .str name0 =>
      let name := pyStrip name0
      if name ≠ "" && !(nameMatchesPattern name) then
        (false, "Name '" ++ name ++
          "' should be hyphen-case (lowercase letters, digits, and hyphens only)")
      else if name ≠ "" && (strStartsWith1 name '-' || strEndsWith1 name '-' ||
          hasDoubleHyphen name) then
        (false, "Name '" ++ name ++
          "' cannot start/end with hyphen or contain consecutive hyphens")
      else if name ≠ "" && decide (MAX_SKILL_NAME_LENGTH < name.length) then
        (false, "Name is too long (" ++ toString name.length ++
          " characters). Maximum is " ++ toString MAX_SKILL_NAME_LENGTH ++
          " characters.")
      else
        match fmGetD frontmatter "description" (.str "") with
        | .other t => (false, "Description must be a string, got " ++ t)
        | .str desc0 =>
          let description := pyStrip desc0
          if description ≠ "" &&
              (description.data.contains '<' || description.data.contains '>') then
            (false, "Description cannot contain angle brackets (< or >)")
          else if description ≠ "" && decide (1024 < description.length) then
            (false, "Description is too long (" ++ toString description.length ++
              " characters). Maximum is 1024 characters.")
          else (true, "Skill is valid!")

/-- What `validate_skill` reads at `<skill_path>/SKILL.md`: the file is
missing; reading fails with an `OSError` carrying the given message (the one
exception class the source's `except OSError` catches); the file exists but
its bytes are not valid UTF-8, so `read_text(encoding="utf-8")` fails with a
`UnicodeDecodeError` carrying the given message (a `ValueError`, which
`except OSError` does not catch); or reading yields the given decoded
text. -/
inductive SkillMdRead where
  | missing
  | oserror (msg : String)
  | undecodable (msg : String)
  | content (text : String)

/-- The skill directory as `validate_skill` observes it: the outcome of
reading its `SKILL.md`. -/
structure SkillDir where
  skillMd : SkillMdRead

/-- `validate_skill` of `quick_validate.py` (with PyYAML absent, so the
fallback parser is used; its string values enter the shared checks as
`FMValue.str`).  The result is an `Except`: `.ok` is the `(ok, message)`
pair the source returns, while `.error` models an exception escaping the
function — which happens exactly when `SKILL.md` exists but is not valid
UTF-8, because the `UnicodeDecodeError` of `read_text` is not an `OSError`
and propagates past the `try` of lines 75–78.  Every other path returns a
pair: a missing or unreadable `SKILL.md`, a malformed frontmatter fence, a
parse failure, and otherwise the shared frontmatter checks. -/
def validate_skill (d : SkillDir) : Except String (Bool × String) :=
  match d.skillMd with
  | .missing => .ok (false, "SKILL.md not found")
  | .oserror e => .ok (false, "Could not read SKILL.md: " ++ e)
  | .undecodable m => .error ("UnicodeDecodeError: " ++ m)
  | .content content =>
    match extract_frontmatter content with
    | none => .ok (false, "Invalid frontmatter format")
    | some fmText =>
      match parse_simple_frontmatter fmText with
      | none =>
        .ok (false,
          "Invalid YAML in frontmatter: unsupported syntax without PyYAML installed")
      | some parsed =>
        .ok (check_frontmatter (parsed.map (fun kv => (kv.1, FMValue.str kv.2))))

/-- The path of a visit event, used to read the traversal off the event
trace. -/
def visitOf : Event → Option (List String)
  | .visit p => some p
  | _ => none

/-- A concrete bundle with two regular files and a symlink pointing outside
the bundle, mirroring the `symlink-file-skill` regression scenario. -/
def bundleSymlink : Bundle :=
  { skillName := "symlink-file-skill"
    rootResolved := ["tmp", "symlink-file-skill"]
    entries := [
      .regular "SKILL.md" ["tmp", "symlink-file-skill", "SKILL.md"],
      .regular "script.py" ["tmp", "symlink-file-skill", "script.py"],
      .symlink "loot.txt" ["tmp", "outside-secret.txt"]] }

/-- A concrete bundle in which one regular file's resolved path escapes the
bundle root, mirroring the `escape-skill` regression scenario. -/
def bundleEscape : Bundle :=
  { skillName := "escape-skill"
    rootResolved := ["tmp", "escape-skill"]
    entries := [
      .regular "SKILL.md" ["tmp", "escape-skill", "SKILL.md"],
      .regular "script.py" ["elsewhere", "script.py"]] }

/-- A concrete symlink-free bundle with a nested directory, mirroring the
`nested-skill` regression scenario. -/
def bundleNested : Bundle :=
  { skillName := "nested-skill"
    rootResolved := ["tmp", "nested-skill"]
    entries := [
      .regular "SKILL.md" ["tmp", "nested-skill", "SKILL.md"],
      .dir "lib" ["tmp", "nested-skill", "lib"] [
        .dir "helpers" ["tmp", "nested-skill", "lib", "helpers"] [
          .regular "util.py" ["tmp", "nested-skill", "lib", "helpers", "util.py"]]],
      .regular "script.py" ["tmp", "nested-skill", "script.py"]] }

/-- A concrete bundle that contains a stale copy of its own output archive,
mirroring the `self-output-skill` regression scenario (the output directory
is the bundle directory itself). -/
def bundleSelfOut : Bundle :=
  { skillName := "self-output-skill"
    rootResolved := ["tmp", "self-output-skill"]
    entries := [
      .regular "SKILL.md" ["tmp", "self-output-skill", "SKILL.md"],
      .regular "script.py" ["tmp", "self-output-skill", "script.py"],
      .regular "self-output-skill.skill"
        ["tmp", "self-output-skill", "self-output-skill.skill"]] }

/-! Helper lemmas about forests of entries. -/

theorem head_eq_of_append_cons_eq {pre : List String} {a b : String}
    {r s : List String} (h : pre ++ a :: r = pre ++ b :: s) : a = b :=
  (List.cons.inj (List.append_cancel_left h)).1

theorem head_eq_of_append_cons_pref {pre : List String} {a b : String}
    {r s : List String} (h : (pre ++ a :: r) <+: (pre ++ b :: s)) : a = b :=
  (List.cons_prefix_cons.mp ((List.prefix_append_right_inj pre).mp h)).1

theorem wfEach_tail {e : Entry} {es : List Entry}
    (h : wfEach (e :: es) = true) : wfEach es = true := by
  simp only [wfEach, Bool.and_eq_true] at h
  exact h.2

theorem wfForest_tail {e : Entry} {es : List Entry}
    (h : wfForest (e :: es) = true) : wfForest es = true := by
  simp only [wfForest, Bool.and_eq_true, decide_eq_true_eq, List.map_cons,
    List.nodup_cons] at h ⊢
  exact ⟨h.1.2, wfEach_tail h.2⟩

theorem wfForest_dir {n : String} {r : List String} {cs es : List Entry}
    (h : wfForest (.dir n r cs :: es) = true) : wfForest cs = true := by
  simp only [wfForest, wfEach, wfEntry, Bool.and_eq_true] at h ⊢
  exact h.2.1

theorem wfForest_head_notin {e : Entry} {es : List Entry}
    (h : wfForest (e :: es) = true) : entryName e ∉ es.map entryName := by
  simp only [wfForest, Bool.and_eq_true, decide_eq_true_eq, List.map_cons,
    List.nodup_cons] at h
  exact h.1.1

theorem filePathsList_shape : ∀ (pre : List String) (es : List Entry)
    (p : List String), p ∈ filePathsList pre es →
    ∃ e ∈ es, ∃ rest, p = pre ++ entryName e :: rest
  | _, [], _, hp => by simp [filePathsList] at hp
  | pre, .regular n r :: es, p, hp => by
    simp only [filePathsList, filePathsE, List.singleton_append, List.mem_cons] at hp
    rcases hp with h | h
    · exact ⟨.regular n r, by simp, [], by simpa [entryName] using h⟩
    · obtain ⟨e, he, rest, hrest⟩ := filePathsList_shape pre es p h
      exact ⟨e, by simp [he], rest, hrest⟩
  | pre, .dir n r cs :: es, p, hp => by
    simp only [filePathsList, filePathsE, List.mem_append] at hp
    rcases hp with h | h
    · obtain ⟨e, _, rest, hrest⟩ := filePathsList_shape (pre ++ [n]) cs p h
      exact ⟨.dir n r cs, by simp, entryName e :: rest, by
        simpa [entryName] using hrest⟩
    · obtain ⟨e, he, rest, hrest⟩ := filePathsList_shape pre es p h
      exact ⟨e, by simp [he], rest, hrest⟩
  | pre, .symlink n t :: es, p, hp => by
    simp only [filePathsList, filePathsE, List.nil_append] at hp
    obtain ⟨e, he, rest, hrest⟩ := filePathsList_shape pre es p hp
    exact ⟨e, by simp [he], rest, hrest⟩

theorem symlinkPathsList_shape : ∀ (pre : List String) (es : List Entry)
    (p : List String), p ∈ symlinkPathsList pre es →
    ∃ e ∈ es, ∃ rest, p = pre ++ entryName e :: rest
  | _, [], _, hp => by simp [symlinkPathsList] at hp
  | pre, .regular n r :: es, p, hp => by
    simp only [symlinkPathsList, symlinkPathsE, List.nil_append] at hp
    obtain ⟨e, he, rest, hrest⟩ := symlinkPathsList_shape pre es p hp
    exact ⟨e, by simp [he], rest, hrest⟩
  | pre, .dir n r cs :: es, p, hp => by
    simp only [symlinkPathsList, symlinkPathsE, List.mem_append] at hp
    rcases hp with h | h
    · obtain ⟨e, _, rest, hrest⟩ := symlinkPathsList_shape (pre ++ [n]) cs p h
      exact ⟨.dir n r cs, by simp, entryName e :: rest, by
        simpa [entryName] using hrest⟩
    · obtain ⟨e, he, rest, hrest⟩ := symlinkPathsList_shape pre es p h
      exact ⟨e, by simp [he], rest, hrest⟩
  | pre, .symlink n t :: es, p, hp => by
    simp only [symlinkPathsList, symlinkPathsE, List.singleton_append, List.mem_cons] at hp
    rcases hp with h | h
    · exact ⟨.symlink n t, by simp, [], by simpa [entryName] using h⟩
    · obtain ⟨e, he, rest, hrest⟩ := symlinkPathsList_shape pre es p h
      exact ⟨e, by simp [he], rest, hrest⟩

theorem visitPathsList_shape : ∀ (pre : List String) (es : List Entry)
    (p : List String), p ∈ visitPathsList pre es →
    ∃ e ∈ es, ∃ rest, p = pre ++ entryName e :: rest
  | _, [], _, hp => by simp [visitPathsList] at hp
  | pre, .regular n r :: es, p, hp => by
    simp only [visitPathsList, visitPathsE, List.singleton_append, List.mem_cons] at hp
    rcases hp with h | h
    · exact ⟨.regular n r, by simp, [], by simpa [entryName] using h⟩
    · obtain ⟨e, he, rest, hrest⟩ := visitPathsList_shape pre es p h
      exact ⟨e, by simp [he], rest, hrest⟩
  | pre, .dir n r cs :: es, p, hp => by
    simp only [visitPathsList, visitPathsE, List.cons_append, List.mem_cons, List.mem_append] at hp
    rcases hp with h | h | h
    · exact ⟨.dir n r cs, by simp, [], by simpa [entryName] using h⟩
    · obtain ⟨e, _, rest, hrest⟩ := visitPathsList_shape (pre ++ [n]) cs p h
      exact ⟨.dir n r cs, by simp, entryName e :: rest, by
        simpa [entryName] using hrest⟩
    · obtain ⟨e, he, rest, hrest⟩ := visitPathsList_shape pre es p h
      exact ⟨e, by simp [he], rest, hrest⟩
  | pre, .symlink n t :: es, p, hp => by
    simp only [visitPathsList, visitPathsE, List.singleton_append, List.mem_cons] at hp
    rcases hp with h | h
    · exact ⟨.symlink n t, by simp, [], by simpa [entryName] using h⟩
    · obtain ⟨e, he, rest, hrest⟩ := visitPathsList_shape pre es p h
      exact ⟨e, by simp [he], rest, hrest⟩

/-- In a well-formed forest, the declared path of a symlink is never a prefix
of the declared path of a reachable regular file: the symlink itself is not a
file, and nothing behind it is ever traversed. -/
theorem symlinkPath_not_pref_filePath : ∀ (pre : List String) (es : List Entry)
    (p q : List String), wfForest es = true → p ∈ symlinkPathsList pre es →
    q ∈ filePathsList pre es → ¬ p <+: q
  | _, [], _, _, _, hp, _ => by simp [symlinkPathsList] at hp
  | pre, .regular n r :: es, p, q, hwf, hp, hq => by
    simp only [symlinkPathsList, symlinkPathsE, List.nil_append] at hp
    simp only [filePathsList, filePathsE, List.singleton_append, List.mem_cons] at hq
    rcases hq with h | h
    · intro hpq
      obtain ⟨e, he, rest, hrest⟩ := symlinkPathsList_shape pre es p hp
      subst hrest h
      have hmn : entryName e = n := by
        have : (pre ++ entryName e :: rest) <+: (pre ++ n :: ([] : List String)) := by
          simpa using hpq
        exact head_eq_of_append_cons_pref this
      exact wfForest_head_notin hwf
        (by simpa [entryName, hmn.symm] using List.mem_map_of_mem entryName he)
    · exact symlinkPath_not_pref_filePath pre es p q (wfForest_tail hwf) hp h
  | pre, .symlink n t :: es, p, q, hwf, hp, hq => by
    simp only [symlinkPathsList, symlinkPathsE, List.singleton_append, List.mem_cons] at hp
    simp only [filePathsList, filePathsE, List.nil_append] at hq
    rcases hp with h | h
    · intro hpq
      obtain ⟨e, he, rest, hrest⟩ := filePathsList_shape pre es q hq
      subst hrest h
      have hmn : n = entryName e := by
        have : (pre ++ n :: ([] : List String)) <+: (pre ++ entryName e :: rest) := by
          simpa using hpq
        exact head_eq_of_append_cons_pref this
      exact wfForest_head_notin hwf
        (by simpa [entryName, hmn] using List.mem_map_of_mem entryName he)
    · exact symlinkPath_not_pref_filePath pre es p q (wfForest_tail hwf) h hq
  | pre, .dir n r cs :: es, p, q, hwf, hp, hq => by
    simp only [symlinkPathsList, symlinkPathsE, List.mem_append] at hp
    simp only [filePathsList, filePathsE, List.mem_append] at hq
    rcases hp with hp | hp <;> rcases hq with hq | hq
    · exact symlinkPath_not_pref_filePath (pre ++ [n]) cs p q (wfForest_dir hwf) hp hq
    · intro hpq
      obtain ⟨e1, _, r1, h1⟩ := symlinkPathsList_shape (pre ++ [n]) cs p hp
      obtain ⟨e2, he2, r2, h2⟩ := filePathsList_shape pre es q hq
      subst h1 h2
      have hp' : (pre ++ [n]) ++ entryName e1 :: r1 = pre ++ n :: entryName e1 :: r1 := by
        simp
      rw [hp'] at hpq
      have hn2 : n = entryName e2 := head_eq_of_append_cons_pref hpq
      exact wfForest_head_notin hwf
        (by simpa [entryName, hn2] using List.mem_map_of_mem entryName he2)
    · intro hpq
      obtain ⟨e1, he1, r1, h1⟩ := symlinkPathsList_shape pre es p hp
      obtain ⟨e2, _, r2, h2⟩ := filePathsList_shape (pre ++ [n]) cs q hq
      subst h1 h2
      have hq' : (pre ++ [n]) ++ entryName e2 :: r2 = pre ++ n :: entryName e2 :: r2 := by
        simp
      rw [hq'] at hpq
      have hn1 : entryName e1 = n := head_eq_of_append_cons_pref hpq
      exact wfForest_head_notin hwf
        (by simpa [entryName, hn1.symm] using List.mem_map_of_mem entryName he1)
    · exact symlinkPath_not_pref_filePath pre es p q (wfForest_tail hwf) hp hq

/-- If some non-symlink entry's resolved path escapes the bundle root, the
forest-wide containment check fails. -/
theorem escaped_not_contained : ∀ (root pre : List String) (es : List Entry)
    (p : List String), p ∈ escapedPathsList root pre es →
    allContainedList root es = false
  | _, _, [], _, hp => by simp [escapedPathsList] at hp
  | root, pre, .regular n r :: es, p, hp => by
    simp only [escapedPathsList, escapedPathsE, List.mem_append] at hp
    by_cases hr : root <+: r
    · rw [if_pos hr] at hp
      rcases hp with h | h
      · simp at h
      · simp [allContainedList, entryContained,
          escaped_not_contained root pre es p h]
    · simp [allContainedList, entryContained, hr]
  | root, pre, .dir n r cs :: es, p, hp => by
    simp only [escapedPathsList, escapedPathsE, List.append_assoc,
      List.mem_append] at hp
    by_cases hr : root <+: r
    · rw [if_pos hr] at hp
      rcases hp with h | h | h
      · simp at h
      · simp [allContainedList, entryContained,
          escaped_not_contained root (pre ++ [n]) cs p h]
      · simp [allContainedList, entryContained,
          escaped_not_contained root pre es p h]
    · simp [allContainedList, entryContained, hr]
  | root, pre, .symlink n t :: es, p, hp => by
    simp only [escapedPathsList, escapedPathsE, List.nil_append] at hp
    simp [allContainedList, entryContained,
      escaped_not_contained root pre es p hp]

/-- In a well-formed forest the traversal meets each declared path at most
once. -/
theorem visitPathsList_nodup : ∀ (pre : List String) (es : List Entry),
    wfForest es = true → (visitPathsList pre es).Nodup
  | _, [], _ => by simp [visitPathsList]
  | pre, .regular n r :: es, hwf => by
    simp only [visitPathsList, visitPathsE, List.singleton_append, List.nodup_cons]
    refine ⟨?_, visitPathsList_nodup pre es (wfForest_tail hwf)⟩
    intro hmem
    obtain ⟨e, he, rest, hrest⟩ := visitPathsList_shape pre es _ hmem
    have hn : n = entryName e := (List.cons.inj (List.append_cancel_left hrest)).1
    exact wfForest_head_notin hwf
      (by simpa [entryName, hn] using List.mem_map_of_mem entryName he)
  | pre, .symlink n t :: es, hwf => by
    simp only [visitPathsList, visitPathsE, List.singleton_append, List.nodup_cons]
    refine ⟨?_, visitPathsList_nodup pre es (wfForest_tail hwf)⟩
    intro hmem
    obtain ⟨e, he, rest, hrest⟩ := visitPathsList_shape pre es _ hmem
    have hn : n = entryName e := (List.cons.inj (List.append_cancel_left hrest)).1
    exact wfForest_head_notin hwf
      (by simpa [entryName, hn] using List.mem_map_of_mem entryName he)
  | pre, .dir n r cs :: es, hwf => by
    simp only [visitPathsList, visitPathsE, List.cons_append, List.nodup_cons, List.nodup_append, List.mem_append]
    refine ⟨?_, visitPathsList_nodup (pre ++ [n]) cs (wfForest_dir hwf),
      visitPathsList_nodup pre es (wfForest_tail hwf), ?_⟩
    · rintro (hmem | hmem)
      · obtain ⟨e, he, rest, hrest⟩ := visitPathsList_shape (pre ++ [n]) cs _ hmem
        have := congrArg List.length hrest
        simp at this
      · obtain ⟨e, he, rest, hrest⟩ := visitPathsList_shape pre es _ hmem
        have hn : n = entryName e := (List.cons.inj (List.append_cancel_left hrest)).1
        exact wfForest_head_notin hwf
          (by simpa [entryName, hn] using List.mem_map_of_mem entryName he)
    · intro x hx1 hx2
      obtain ⟨e1, _, r1, h1⟩ := visitPathsList_shape (pre ++ [n]) cs x hx1
      obtain ⟨e2, he2, r2, h2⟩ := visitPathsList_shape pre es x hx2
      have h1' : x = pre ++ n :: entryName e1 :: r1 := by simpa using h1
      have hcomb : pre ++ n :: entryName e1 :: r1 = pre ++ entryName e2 :: r2 := by
        rw [← h1', h2]
      have hn : n = entryName e2 := head_eq_of_append_cons_eq hcomb
      exact wfForest_head_notin hwf
        (by simpa [entryName, hn] using List.mem_map_of_mem entryName he2)

/-- The traversal never descends deeper than the real directory depth of the
forest. -/
theorem visitPathsList_length_le : ∀ (pre : List String) (es : List Entry)
    (p : List String), p ∈ visitPathsList pre es →
    p.length ≤ pre.length + forestDepth es
  | _, [], _, hp => by simp [visitPathsList] at hp
  | pre, .regular n r :: es, p, hp => by
    simp only [visitPathsList, visitPathsE, List.singleton_append, List.mem_cons] at hp
    simp only [forestDepth, entryDepth]
    rcases hp with h | h
    · subst h
      simp only [List.length_append, List.length_cons, List.length_nil]
      omega
    · have := visitPathsList_length_le pre es p h
      omega
  | pre, .symlink n t :: es, p, hp => by
    simp only [visitPathsList, visitPathsE, List.singleton_append, List.mem_cons] at hp
    simp only [forestDepth, entryDepth]
    rcases hp with h | h
    · subst h
      simp only [List.length_append, List.length_cons, List.length_nil]
      omega
    · have := visitPathsList_length_le pre es p h
      omega
  | pre, .dir n r cs :: es, p, hp => by
    simp only [visitPathsList, visitPathsE, List.cons_append, List.mem_cons, List.mem_append] at hp
    simp only [forestDepth, entryDepth]
    rcases hp with h | h | h
    · subst h
      simp only [List.length_append, List.length_cons, List.length_nil]
      omega
    · have := visitPathsList_length_le (pre ++ [n]) cs p h
      simp only [List.length_append, List.length_cons, List.length_nil] at this
      omega
    · have := visitPathsList_length_le pre es p h
      omega

theorem charListLt_irrefl : ∀ l : List Char, charListLt l l = false
  | [] => rfl
  | a :: as => by simp [charListLt, charListLt_irrefl as]

theorem charListLt_trans : ∀ a b c : List Char,
    charListLt a b = true → charListLt b c = true → charListLt a c = true
  | [], [], _, hab, _ => by simp [charListLt] at hab
  | [], _ :: _, [], _, hbc => by simp [charListLt] at hbc
  | [], _ :: _, _ :: _, _, _ => rfl
  | _ :: _, [], _, hab, _ => by simp [charListLt] at hab
  | _ :: _, _ :: _, [], _, hbc => by simp [charListLt] at hbc
  | x :: xs, y :: ys, z :: zs, hab, hbc => by
    by_cases hxy : x = y <;> by_cases hyz : y = z
    · subst hxy; subst hyz
      simp only [charListLt, if_pos rfl] at hab hbc ⊢
      exact charListLt_trans xs ys zs hab hbc
    · subst hxy
      simp only [charListLt, if_neg hyz, decide_eq_true_eq] at hbc
      simp [charListLt, hyz, hbc]
    · subst hyz
      simp only [charListLt, if_neg hxy, decide_eq_true_eq] at hab
      simp [charListLt, hxy, hab]
    · simp only [charListLt, if_neg hxy, decide_eq_true_eq] at hab
      simp only [charListLt, if_neg hyz, decide_eq_true_eq] at hbc
      have hxz : x < z := lt_trans hab hbc
      simp [charListLt, ne_of_lt hxz, hxz]

theorem charListLt_total : ∀ a b : List Char,
    a ≠ b → (charListLt a b || charListLt b a) = true
  | [], [], h => absurd rfl h
  | [], _ :: _, _ => by simp [charListLt]
  | _ :: _, [], _ => by simp [charListLt]
  | x :: xs, y :: ys, h => by
    by_cases hxy : x = y
    · subst hxy
      have hne : xs ≠ ys := by
        intro he
        exact h (by rw [he])
      simpa [charListLt] using charListLt_total xs ys hne
    · rcases lt_or_gt_of_ne hxy with hlt | hlt <;>
        simp [charListLt, hxy, Ne.symm hxy, hlt]

theorem string_eq_of_data_eq {a b : String} (h : a.data = b.data) : a = b := by
  cases a
  cases b
  exact congrArg String.mk h

theorem strLt_irrefl (a : String) : strLt a a = false :=
  charListLt_irrefl a.data

theorem strLt_trans {a b c : String} (h1 : strLt a b = true)
    (h2 : strLt b c = true) : strLt a c = true :=
  charListLt_trans a.data b.data c.data h1 h2

theorem strLt_total {a b : String} (h : a ≠ b) :
    (strLt a b || strLt b a) = true :=
  charListLt_total a.data b.data (fun he => h (string_eq_of_data_eq he))

/-- `pathLe` is total. -/
theorem pathLe_total : ∀ p q : List String, (pathLe p q || pathLe q p) = true := by
  intro p
  induction p with
  | nil => intro q; cases q <;> simp [pathLe]
  | cons a p ih =>
    intro q
    cases q with
    | nil => simp [pathLe]
    | cons b q =>
      by_cases hab : a = b
      · subst hab; simpa [pathLe] using ih q
      · simpa [pathLe, hab, Ne.symm hab] using strLt_total hab

/-- `pathLe` is transitive. -/
theorem pathLe_trans : ∀ p q r : List String,
    pathLe p q = true → pathLe q r = true → pathLe p r = true := by
  intro p
  induction p with
  | nil => intro q r _ _; simp [pathLe]
  | cons a p ih =>
    intro q r hpq hqr
    cases q with
    | nil => simp [pathLe] at hpq
    | cons b q =>
      cases r with
      | nil => simp [pathLe] at hqr
      | cons c r =>
        by_cases hab : a = b <;> by_cases hbc : b = c
        · subst hab; subst hbc
          simp only [pathLe, if_pos rfl] at hpq hqr ⊢
          exact ih q r hpq hqr
        · subst hab
          simp only [pathLe, if_neg hbc] at hqr
          simp [pathLe, hbc, hqr]
        · subst hbc
          simp only [pathLe, if_neg hab] at hpq
          simp [pathLe, hab, hpq]
        · simp only [pathLe, if_neg hab] at hpq
          simp only [pathLe, if_neg hbc] at hqr
          have hac : strLt a c = true := strLt_trans hpq hqr
          have hne : a ≠ c := by
            rintro rfl
            rw [strLt_irrefl] at hac
            exact absurd hac (by simp)
          simp [pathLe, hne, hac]

theorem mem_insertPath {x p : List String} {l : List (List String)} :
    x ∈ insertPath p l ↔ x = p ∨ x ∈ l := by
  induction l with
  | nil => simp [insertPath]
  | cons q qs ih =>
    by_cases h : pathLe p q = true
    · simp [insertPath, h, List.mem_cons]
    · simp only [insertPath, if_neg h, List.mem_cons, ih]
      tauto

theorem mem_sortPaths {x : List String} {l : List (List String)} :
    x ∈ sortPaths l ↔ x ∈ l := by
  induction l with
  | nil => simp [sortPaths]
  | cons p ps ih => simp [sortPaths, mem_insertPath, ih]

theorem sorted_insertPath {p : List String} {l : List (List String)}
    (hl : l.Pairwise (fun a b => pathLe a b = true)) :
    (insertPath p l).Pairwise (fun a b => pathLe a b = true) := by
  induction l with
  | nil => simp [insertPath]
  | cons q qs ih =>
    rcases List.pairwise_cons.mp hl with ⟨hq, hqs⟩
    by_cases h : pathLe p q = true
    · rw [insertPath, if_pos h]
      refine List.pairwise_cons.mpr ⟨?_, hl⟩
      intro b hb
      rcases List.mem_cons.mp hb with rfl | hb
      · exact h
      · exact pathLe_trans p q b h (hq b hb)
    · rw [insertPath, if_neg h]
      refine List.pairwise_cons.mpr ⟨?_, ih hqs⟩
      intro b hb
      rcases mem_insertPath.mp hb with rfl | hb
      · have htot := pathLe_total b q
        rw [Bool.or_eq_true] at htot
        rcases htot with h1 | h1
        · exact absurd h1 h
        · exact h1
      · exact hq b hb

theorem sorted_sortPaths (l : List (List String)) :
    (sortPaths l).Pairwise (fun a b => pathLe a b = true) := by
  induction l with
  | nil => simp [sortPaths]
  | cons p ps ih => exact sorted_insertPath ih

theorem filterMap_visitOf_map (l : List (List String)) :
    (l.map Event.visit).filterMap visitOf = l := by
  induction l with
  | nil => rfl
  | cons a l ih => simp [visitOf, ih]

theorem filterMap_visitOf_comp (l : List (List String)) :
    List.filterMap (visitOf ∘ Event.visit) l = l := by
  induction l with
  | nil => rfl
  | cons a l ih =>
    rw [List.filterMap_cons_some (show (visitOf ∘ Event.visit) a = some a from rfl), ih]

theorem mem_keptFilePaths {b : Bundle} {outRel : Option (List String)}
    {q : List String} :
    q ∈ keptFilePaths b outRel ↔
      q ∈ filePathsList [] b.entries ∧ selfOutputPath b outRel ≠ some q := by
  simp [keptFilePaths, List.mem_filter]

theorem package_archived_of_contained {b : Bundle} {outRel : Option (List String)}
    (hcont : allContainedList b.rootResolved b.entries = true) :
    package true b outRel =
      .archived (sortPaths (keptFilePaths b outRel)) := by
  simp [package, packageTr, hcont]

/-! The claims. -/

/-- C1: for every bundle whose non-symlink entries all pass containment,
and every symlink entry at declared path `p` (whatever its target resolves
to), packaging succeeds, no archive member equals `p` or lies under `p`
(nothing reachable only through the link is traversed), and every regular
file other than the archive's own output path is included. -/
theorem package_skips_symlinks (b : Bundle) (outRel : Option (List String))
    (p : List String)
    (hcont : allContainedList b.rootResolved b.entries = true)
    (hwf : wfForest b.entries = true)
    (hsym : p ∈ symlinkPathsList [] b.entries) :
    ∃ ms, package true b outRel = .archived ms ∧
      (∀ q ∈ ms, ¬ p <+: q) ∧
      (∀ q ∈ filePathsList [] b.entries,
        selfOutputPath b outRel ≠ some q → q ∈ ms) := by
  refine ⟨_, package_archived_of_contained hcont, ?_, ?_⟩
  · intro q hq
    rw [mem_sortPaths, mem_keptFilePaths] at hq
    exact symlinkPath_not_pref_filePath [] b.entries p q hwf hsym hq.1
  · intro q hqf hne
    rw [mem_sortPaths, mem_keptFilePaths]
    exact ⟨hqf, hne⟩

theorem package_skips_symlinks_witness :
    allContainedList bundleSymlink.rootResolved bundleSymlink.entries = true ∧
    wfForest bundleSymlink.entries = true ∧
    ["loot.txt"] ∈ symlinkPathsList [] bundleSymlink.entries ∧
    (∃ ms, package true bundleSymlink none = .archived ms ∧
      (∀ q ∈ ms, ¬ ["loot.txt"] <+: q) ∧
      (∀ q ∈ filePathsList [] bundleSymlink.entries,
        selfOutputPath bundleSymlink none ≠ some q → q ∈ ms)) :=
  ⟨by decide, by decide, by decide,
    package_skips_symlinks bundleSymlink none ["loot.txt"]
      (by decide) (by decide) (by decide)⟩

/-- C2: if any single non-symlink entry fails the containment check (its
resolved path does not lie inside the bundle root), the whole packaging
operation is Rejected — not merely that entry skipped — and the archive file
is never written, even when every other entry is valid. -/
theorem package_rejects_escape (b : Bundle) (outRel : Option (List String))
    (p : List String)
    (hesc : p ∈ escapedPathsList b.rootResolved [] b.entries) :
    package true b outRel = .rejected ∧
    Event.writeArchive ∉ (packageTr true b outRel).2 := by
  have hfalse := escaped_not_contained b.rootResolved [] b.entries p hesc
  constructor
  · simp [package, packageTr, hfalse]
  · simp [packageTr, hfalse]

theorem package_rejects_escape_witness :
    ["script.py"] ∈ escapedPathsList bundleEscape.rootResolved [] bundleEscape.entries ∧
    (package true bundleEscape none = .rejected ∧
      Event.writeArchive ∉ (packageTr true bundleEscape none).2) :=
  ⟨by decide, package_rejects_escape bundleEscape none ["script.py"] (by decide)⟩

/-- C3: for every symlink-free bundle (only regular files and real
directories, all passing containment) packaged to an output directory
outside the bundle, the archive member set is exactly the set of
bundle-relative regular-file paths at any nesting depth, and each member
name is that path prefixed with `skill_name/` using forward-slash
separators; empty directories contribute no members. -/
theorem package_members_exactly_files (b : Bundle)
    (hcont : allContainedList b.rootResolved b.entries = true)
    (_hnosym : noSymlinksList b.entries = true) :
    ∃ ms, package true b none = .archived ms ∧
      (∀ q, q ∈ ms ↔ q ∈ filePathsList [] b.entries) ∧
      (∀ s, s ∈ archiveNames b ms ↔
        ∃ q ∈ filePathsList [] b.entries, s = memberName b.skillName q) := by
  refine ⟨_, package_archived_of_contained hcont, ?_, ?_⟩
  · intro q
    rw [mem_sortPaths, mem_keptFilePaths]
    simp [selfOutputPath]
  · intro s
    simp only [archiveNames, List.mem_map]
    constructor
    · rintro ⟨q, hq, rfl⟩
      rw [mem_sortPaths, mem_keptFilePaths] at hq
      exact ⟨q, hq.1, rfl⟩
    · rintro ⟨q, hq, rfl⟩
      refine ⟨q, ?_, rfl⟩
      rw [mem_sortPaths, mem_keptFilePaths]
      simpa [selfOutputPath] using hq

theorem package_members_exactly_files_witness :
    allContainedList bundleNested.rootResolved bundleNested.entries = true ∧
    noSymlinksList bundleNested.entries = true ∧
    (∃ ms, package true bundleNested none = .archived ms ∧
      (∀ q, q ∈ ms ↔ q ∈ filePathsList [] bundleNested.entries) ∧
      (∀ s, s ∈ archiveNames bundleNested ms ↔
        ∃ q ∈ filePathsList [] bundleNested.entries,
          s = memberName bundleNested.skillName q)) :=
  ⟨by decide, by decide,
    package_members_exactly_files bundleNested (by decide) (by decide)⟩

/-- C4: when the output directory equals the bundle directory or lies inside
it (at bundle-relative path `rel`), the produced archive never contains a
member for the OutputArchive's own filename `<skill_name>.skill`, while every
other regular file of the bundle is still included. -/
theorem package_excludes_own_archive (b : Bundle) (rel : List String)
    (hcont : allContainedList b.rootResolved b.entries = true) :
    ∃ ms, package true b (some rel) = .archived ms ∧
      rel ++ [archiveFileName b] ∉ ms ∧
      (∀ q ∈ filePathsList [] b.entries,
        q ≠ rel ++ [archiveFileName b] → q ∈ ms) := by
  refine ⟨_, package_archived_of_contained hcont, ?_, ?_⟩
  · intro hmem
    rw [mem_sortPaths, mem_keptFilePaths] at hmem
    exact hmem.2 (by simp [selfOutputPath])
  · intro q hq hne
    rw [mem_sortPaths, mem_keptFilePaths]
    refine ⟨hq, ?_⟩
    simp only [selfOutputPath, Option.map_some', ne_eq, Option.some.injEq]
    exact fun h => hne h.symm

theorem package_excludes_own_archive_witness :
    allContainedList bundleSelfOut.rootResolved bundleSelfOut.entries = true ∧
    (∃ ms, package true bundleSelfOut (some []) = .archived ms ∧
      [] ++ [archiveFileName bundleSelfOut] ∉ ms ∧
      (∀ q ∈ filePathsList [] bundleSelfOut.entries,
        q ≠ [] ++ [archiveFileName bundleSelfOut] → q ∈ ms)) :=
  ⟨by decide, package_excludes_own_archive bundleSelfOut [] (by decide)⟩

/-- C5: when the Validator reports not-ok, packaging is Rejected with the
Validator consulted exactly once, no entry visited (rejection happens before
any traversal), and no archive write performed. -/
theorem package_validator_gate (b : Bundle) (outRel : Option (List String)) :
    packageTr false b outRel = (.rejected, [.validatorCall]) ∧
    (packageTr false b outRel).2.count .validatorCall = 1 ∧
    (∀ p, Event.visit p ∉ (packageTr false b outRel).2) ∧
    Event.writeArchive ∉ (packageTr false b outRel).2 := by
  refine ⟨rfl, ?_, ?_, ?_⟩ <;> simp [packageTr]

theorem package_validator_gate_witness :
    packageTr false bundleSymlink none = (.rejected, [.validatorCall]) ∧
    (packageTr false bundleSymlink none).2.count .validatorCall = 1 ∧
    (∀ p, Event.visit p ∉ (packageTr false bundleSymlink none).2) ∧
    Event.writeArchive ∉ (packageTr false bundleSymlink none).2 :=
  package_validator_gate bundleSymlink none

/-- C6: packaging is deterministic — the same verdict on every rerun over an
unchanged bundle — and, on success, the member paths come in the
deterministic lexicographic traversal order. -/
theorem package_deterministic_sorted (vOk : Bool) (b : Bundle)
    (outRel : Option (List String)) :
    package vOk b outRel = package vOk b outRel ∧
    (∀ ms, package vOk b outRel = .archived ms →
      ms.Pairwise (fun p q => pathLe p q = true)) := by
  refine ⟨rfl, ?_⟩
  intro ms hms
  cases vOk with
  | false => simp [package, packageTr] at hms
  | true =>
    cases hc : allContainedList b.rootResolved b.entries with
    | false => simp [package, packageTr, hc] at hms
    | true =>
      rw [package_archived_of_contained hc] at hms
      cases hms
      exact sorted_sortPaths (keptFilePaths b outRel)

theorem package_deterministic_sorted_witness :
    (package true bundleNested none = package true bundleNested none) ∧
    ([["SKILL.md"], ["lib", "helpers", "util.py"], ["script.py"]].Pairwise
      (fun p q => pathLe p q = true)) :=
  ⟨(package_deterministic_sorted true bundleNested none).1,
    (package_deterministic_sorted true bundleNested none).2
      [["SKILL.md"], ["lib", "helpers", "util.py"], ["script.py"]] (by decide)⟩

/-- C7: packaging terminates on every bundle — the model is a total function,
because symlinks are never followed — and on a well-formed bundle the
traversal visits no entry more than once and never descends deeper than the
real directory depth. -/
theorem package_terminates_visits_once (vOk : Bool) (b : Bundle)
    (outRel : Option (List String)) (hwf : wfForest b.entries = true) :
    ((packageTr vOk b outRel).2.filterMap visitOf).Nodup ∧
    (∀ p, Event.visit p ∈ (packageTr vOk b outRel).2 →
      p ∈ visitPathsList [] b.entries ∧ p.length ≤ forestDepth b.entries) := by
  cases vOk with
  | false =>
    constructor
    · simp [packageTr, visitOf]
    · intro p hp
      simp [packageTr] at hp
  | true =>
    cases hc : allContainedList b.rootResolved b.entries with
    | true =>
      have htr : (packageTr true b outRel).2 =
          .validatorCall ::
            ((visitPathsList [] b.entries).map .visit ++ [.writeArchive]) := by
        simp [packageTr, hc]
      rw [htr]
      constructor
      · simpa [visitOf, filterMap_visitOf_comp] using
          visitPathsList_nodup [] b.entries hwf
      · intro p hp
        simp at hp
        exact ⟨hp, by simpa using visitPathsList_length_le [] b.entries p hp⟩
    | false =>
      have htr : (packageTr true b outRel).2 =
          .validatorCall :: (visitPathsList [] b.entries).map .visit := by
        simp [packageTr, hc]
      rw [htr]
      constructor
      · simpa [visitOf, filterMap_visitOf_comp] using
          visitPathsList_nodup [] b.entries hwf
      · intro p hp
        simp at hp
        exact ⟨hp, by simpa using visitPathsList_length_le [] b.entries p hp⟩

/-- If the frontmatter checks succeed, the stripped non-empty name passed
every name check and the description (when it is a string) passed both
description checks. -/
theorem check_frontmatter_true_good (fm : FrontMatter) (s : String)
    (hnameval : fmGetD fm "name" (.str "") = .str s)
    (hne : pyStrip s ≠ "")
    (hok : (check_frontmatter fm).1 = true) :
    nameMatchesPattern (pyStrip s) = true ∧
    strStartsWith1 (pyStrip s) '-' = false ∧
    strEndsWith1 (pyStrip s) '-' = false ∧
    hasDoubleHyphen (pyStrip s) = false ∧
    (pyStrip s).length ≤ MAX_SKILL_NAME_LENGTH ∧
    (∀ d, fmGetD fm "description" (.str "") = .str d →
      (pyStrip d).data.contains '<' = false ∧
      (pyStrip d).data.contains '>' = false ∧
      (pyStrip d).length ≤ 1024) := by
  have hdec : decide (pyStrip s ≠ "") = true := by simp [hne]
  simp only [check_frontmatter, hnameval] at hok
  split at hok
  next => simp at hok
  next =>
    split at hok
    next => simp at hok
    next =>
      split at hok
      next => simp at hok
      next =>
        split at hok
        next h1 => simp at hok
        next h1 =>
          split at hok
          next h2 => simp at hok
          next h2 =>
            split at hok
            next h3 => simp at hok
            next h3 =>
              simp only [hdec, Bool.true_and, Bool.not_eq_true',
                Bool.or_eq_true, not_or, decide_eq_true_eq] at h1 h2 h3
              refine ⟨by simpa using h1, ?_, ?_, ?_, Nat.not_lt.mp h3, ?_⟩
              · simpa using h2.1.1
              · simpa using h2.1.2
              · simpa using h2.2
              · intro d hd
                split at hok
                next t ht => simp at hok
                next d0 hd0 =>
                  rw [hd0] at hd
                  cases hd
                  by_cases hde : pyStrip d = ""
                  · rw [hde]
                    exact ⟨by decide, by decide, by decide⟩
                  · have hdd : decide (pyStrip d ≠ "") = true := by simp [hde]
                    split at hok
                    next h4 => simp at hok
                    next h4 =>
                      split at hok
                      next h5 => simp at hok
                      next h5 =>
                        simp only [hdd, Bool.true_and, Bool.or_eq_true,
                          not_or, Bool.not_eq_true, decide_eq_true_eq] at h4 h5
                        exact ⟨h4.1, h4.2, Nat.not_lt.mp h5⟩

theorem package_terminates_visits_once_witness :
    wfForest bundleNested.entries = true ∧
    (((packageTr true bundleNested none).2.filterMap visitOf).Nodup ∧
      (∀ p, Event.visit p ∈ (packageTr true bundleNested none).2 →
        p ∈ visitPathsList [] bundleNested.entries ∧
        p.length ≤ forestDepth bundleNested.entries)) :=
  ⟨by decide, package_terminates_visits_once true bundleNested none (by decide)⟩

/-- C8, the claim as stated is false of the source: at the concrete input
whose `SKILL.md` exists but holds bytes that are not valid UTF-8,
`validate_skill` does not return any (ok, message) pair — the
`UnicodeDecodeError` of `read_text(encoding="utf-8")` is a `ValueError`,
`except OSError` does not catch it, and it escapes the function. -/
theorem validate_skill_raises_on_non_utf8 :
    validate_skill ⟨.undecodable "invalid start byte"⟩ =
      .error ("UnicodeDecodeError: " ++ "invalid start byte") ∧
    ¬ ∃ ok msg, validate_skill ⟨.undecodable "invalid start byte"⟩ =
      Except.ok (ok, msg) := by
  constructor
  · rfl
  · rintro ⟨ok, msg, h⟩
    simp [validate_skill] at h

/-- C8 (amended): `validate_skill` returns an (ok, message) pair — raising
no exception — for every input whose `SKILL.md` is absent, fails to read
with `OSError`, or reads as valid UTF-8 text; in particular it reports a
missing `SKILL.md`, an unreadable `SKILL.md` (the caught `OSError`), a
malformed frontmatter fence and an unparsable frontmatter with ok = false
together with a descriptive message.  But when `SKILL.md` exists with bytes
that are not valid UTF-8, the uncaught `UnicodeDecodeError` escapes instead
of a pair being returned. -/
theorem validate_skill_total_error_results (d : SkillDir) :
    ((∀ m, d.skillMd ≠ .undecodable m) →
      ∃ ok msg, validate_skill d = .ok (ok, msg)) ∧
    (d.skillMd = .missing →
      validate_skill d = .ok (false, "SKILL.md not found")) ∧
    (∀ e, d.skillMd = .oserror e →
      validate_skill d = .ok (false, "Could not read SKILL.md: " ++ e)) ∧
    (∀ c, d.skillMd = .content c → extract_frontmatter c = none →
      validate_skill d = .ok (false, "Invalid frontmatter format")) ∧
    (∀ c t, d.skillMd = .content c → extract_frontmatter c = some t →
      parse_simple_frontmatter t = none →
      validate_skill d = .ok (false,
        "Invalid YAML in frontmatter: unsupported syntax without PyYAML installed")) ∧
    (∀ m, d.skillMd = .undecodable m →
      validate_skill d = .error ("UnicodeDecodeError: " ++ m)) := by
  refine ⟨?_, ?_, ?_, ?_, ?_, ?_⟩
  · intro hnot
    cases hm : d.skillMd with
    | missing =>
      exact ⟨false, "SKILL.md not found", by simp [validate_skill, hm]⟩
    | oserror e =>
      exact ⟨false, "Could not read SKILL.md: " ++ e, by simp [validate_skill, hm]⟩
    | undecodable m => exact absurd hm (hnot m)
    | content c =>
      cases hfm : extract_frontmatter c with
      | none =>
        exact ⟨false, "Invalid frontmatter format",
          by simp [validate_skill, hm, hfm]⟩
      | some t =>
        cases hp : parse_simple_frontmatter t with
        | none =>
          exact ⟨false,
            "Invalid YAML in frontmatter: unsupported syntax without PyYAML installed",
            by simp [validate_skill, hm, hfm, hp]⟩
        | some parsed =>
          refine ⟨(check_frontmatter
              (parsed.map (fun kv => (kv.1, FMValue.str kv.2)))).1,
            (check_frontmatter
              (parsed.map (fun kv => (kv.1, FMValue.str kv.2)))).2, ?_⟩
          simp [validate_skill, hm, hfm, hp]
  · intro h
    simp [validate_skill, h]
  · intro e h
    simp [validate_skill, h]
  · intro c h hfm
    simp [validate_skill, h, hfm]
  · intro c t h hfm hp
    simp [validate_skill, h, hfm, hp]
  · intro m h
    simp [validate_skill, h]

theorem validate_skill_total_error_results_witness :
    (∃ ok msg, validate_skill ⟨.missing⟩ = .ok (ok, msg)) ∧
    validate_skill ⟨.missing⟩ = .ok (false, "SKILL.md not found") ∧
    validate_skill ⟨.oserror "Permission denied"⟩ =
      .ok (false, "Could not read SKILL.md: Permission denied") ∧
    validate_skill ⟨.content "# no frontmatter"⟩ =
      .ok (false, "Invalid frontmatter format") ∧
    validate_skill ⟨.content "---\nno colon here\n---\n"⟩ =
      .ok (false,
        "Invalid YAML in frontmatter: unsupported syntax without PyYAML installed") ∧
    validate_skill ⟨.undecodable "invalid continuation byte"⟩ =
      .error ("UnicodeDecodeError: " ++ "invalid continuation byte") :=
  ⟨(validate_skill_total_error_results ⟨.missing⟩).1
      (fun m h => SkillMdRead.noConfusion h),
    (validate_skill_total_error_results ⟨.missing⟩).2.1 rfl,
    (validate_skill_total_error_results ⟨.oserror "Permission denied"⟩).2.2.1
      "Permission denied" rfl,
    (validate_skill_total_error_results ⟨.content "# no frontmatter"⟩).2.2.2.1
      "# no frontmatter" rfl (by decide),
    (validate_skill_total_error_results
        ⟨.content "---\nno colon here\n---\n"⟩).2.2.2.2.1
      "---\nno colon here\n---\n" "no colon here" rfl (by decide) (by decide),
    (validate_skill_total_error_results
        ⟨.undecodable "invalid continuation byte"⟩).2.2.2.2.2
      "invalid continuation byte" rfl⟩

/-- C9: the frontmatter checks accept a `name` value that is the empty
string or whitespace only — the naming-pattern, hyphen-placement and length
checks are guarded by the non-emptiness of the stripped name — even though
the `name` key itself must be present: a frontmatter missing it is
rejected. -/
theorem check_frontmatter_accepts_blank_name (fm : FrontMatter) (s d : String)
    (hkeys : ∀ k ∈ fmKeys fm, k ∈ allowedProperties)
    (hname : fmHas fm "name" = true)
    (hdesc : fmHas fm "description" = true)
    (hnameval : fmGetD fm "name" (.str "") = .str s)
    (hblank : pyStrip s = "")
    (hdescval : fmGetD fm "description" (.str "") = .str d)
    (hlt : (pyStrip d).data.contains '<' = false)
    (hgt : (pyStrip d).data.contains '>' = false)
    (hlen : (pyStrip d).length ≤ 1024) :
    check_frontmatter fm = (true, "Skill is valid!") ∧
    (∀ fm2 : FrontMatter, (∀ k ∈ fmKeys fm2, k ∈ allowedProperties) →
      fmHas fm2 "name" = false →
      check_frontmatter fm2 = (false, "Missing 'name' in frontmatter")) := by
  constructor
  · have hnoex : ¬ ∃ x ∈ fmKeys fm, x ∉ allowedProperties := by
      push_neg
      exact hkeys
    have hlen2 : decide (1024 < (pyStrip d).length) = false :=
      decide_eq_false (Nat.not_lt.mpr hlen)
    have hlt2 : '<' ∉ (pyStrip d).data := by simpa using hlt
    have hgt2 : '>' ∉ (pyStrip d).data := by simpa using hgt
    simp [check_frontmatter, hnoex, hname, hdesc, hnameval, hdescval, hblank,
      hlt2, hgt2, hlen2]
  · intro fm2 hkeys2 hname2
    have hnoex2 : ¬ ∃ x ∈ fmKeys fm2, x ∉ allowedProperties := by
      push_neg
      exact hkeys2
    simp [check_frontmatter, hnoex2, hname2]

theorem check_frontmatter_accepts_blank_name_witness :
    check_frontmatter [("name", .str " "), ("description", .str "A useful skill")]
      = (true, "Skill is valid!") :=
  (check_frontmatter_accepts_blank_name
    [("name", .str " "), ("description", .str "A useful skill")]
    " " "A useful skill" (by decide) (by decide) (by decide) (by decide)
    (by decide) (by decide) (by decide) (by decide) (by decide)).1

/-- C10: for a frontmatter whose `name` value is a string that is non-empty
after stripping, the checks reject (ok = false) whenever the stripped name is
longer than 64 characters, fails the `[a-z0-9-]` pattern, starts or ends
with a hyphen or contains consecutive hyphens — and likewise whenever the
`description` value is a string whose strip exceeds 1024 characters or
contains an angle bracket. -/
theorem check_frontmatter_rejects_bad_name_or_description (fm : FrontMatter)
    (s : String)
    (hnameval : fmGetD fm "name" (.str "") = .str s)
    (hne : pyStrip s ≠ "")
    (hbad :
      (MAX_SKILL_NAME_LENGTH < (pyStrip s).length ∨
        nameMatchesPattern (pyStrip s) = false ∨
        strStartsWith1 (pyStrip s) '-' = true ∨
        strEndsWith1 (pyStrip s) '-' = true ∨
        hasDoubleHyphen (pyStrip s) = true) ∨
      (∃ d, fmGetD fm "description" (.str "") = .str d ∧
        (1024 < (pyStrip d).length ∨
          (pyStrip d).data.contains '<' = true ∨
          (pyStrip d).data.contains '>' = true))) :
    (check_frontmatter fm).1 = false := by
  cases hok : (check_frontmatter fm).1 with
  | false => rfl
  | true =>
    exfalso
    obtain ⟨hpat, hst, hen, hdh, hlen, hdescr⟩ :=
      check_frontmatter_true_good fm s hnameval hne hok
    rcases hbad with hb | ⟨d, hd, hb⟩
    · rcases hb with h | h | h | h | h
      · omega
      · rw [hpat] at h
        exact absurd h (by simp)
      · rw [hst] at h
        exact absurd h (by simp)
      · rw [hen] at h
        exact absurd h (by simp)
      · rw [hdh] at h
        exact absurd h (by simp)
    · obtain ⟨hc1, hc2, hl⟩ := hdescr d hd
      rcases hb with h | h | h
      · omega
      · rw [hc1] at h
        exact absurd h (by simp)
      · rw [hc2] at h
        exact absurd h (by simp)

theorem check_frontmatter_rejects_bad_name_or_description_witness :
    (check_frontmatter
      [("name", .str "Bad Name"), ("description", .str "fine")]).1 = false :=
  check_frontmatter_rejects_bad_name_or_description
    [("name", .str "Bad Name"), ("description", .str "fine")] "Bad Name"
    (by decide) (by decide) (Or.inl (Or.inr (Or.inl (by decide))))

end OpenClaw
